import Mathlib

/-!
Verification development for the Fragmenstein compositor/placement core
(`src/fragmenstein/core/__init__.py`, class `Fragmenstein`).

The Python source is shallowly embedded: pure fragments of the source become
Lean functions, loops with state become folds or fuel-based recursion,
machine floats become rationals, and calls into the external chemistry
toolkit (RDKit: `rdFMCS.FindMCS`, `GetSubstructMatches`, `AlignMol`,
`EmbedMolecule`) are abstracted as explicit oracle parameters, since the
spec treats the toolkit as an opaque capability set.
-/

namespace Fragmenstein

/-- Conformer coordinates of one atom.  The source stores float triples
(`Point3D`); we model coordinates as rationals. -/
structure Pt where
  x : ℚ
  y : ℚ
  z : ℚ
deriving DecidableEq, Repr

/-- Squared Euclidean distance between two atom positions.  The source's
`distance` lambda in `get_positional_mapping` is
`((a.x-b.x)**2 + (a.y-b.y)**2 + (a.z-b.z)**2) ** 0.5`; we keep the squared
form (see `get_positional_mapping` for how comparisons are transported). -/
def sqDist (a b : Pt) : ℚ :=
  (a.x - b.x) * (a.x - b.x) + (a.y - b.y) * (a.y - b.y) + (a.z - b.z) * (a.z - b.z)

theorem sqDist_nonneg (a b : Pt) : 0 ≤ sqDist a b := by
  have hx : (0:ℚ) ≤ (a.x - b.x) * (a.x - b.x) := mul_self_nonneg _
  have hy : (0:ℚ) ≤ (a.y - b.y) * (a.y - b.y) := mul_self_nonneg _
  have hz : (0:ℚ) ≤ (a.z - b.z) * (a.z - b.z) := mul_self_nonneg _
  unfold sqDist
  linarith

theorem sqDist_self (a : Pt) : sqDist a a = 0 := by
  simp [sqDist]

/-- Row-major enumeration of the positions of an `nA × nB` matrix, the scan
order of `np.where(dm == d)` in `get_positional_mapping`. -/
def grid (nA nB : ℕ) : List (ℕ × ℕ) :=
  (List.range nA).flatMap (fun i => (List.range nB).map (fun j => (i, j)))

theorem mem_grid {nA nB : ℕ} {p : ℕ × ℕ} :
    p ∈ grid nA nB ↔ p.1 < nA ∧ p.2 < nB := by
  cases p with
  | mk i j =>
    simp only [grid, List.mem_flatMap, List.mem_map, List.mem_range]
    constructor
    · rintro ⟨a, ha, b, hb, hab⟩
      cases hab
      exact ⟨ha, hb⟩
    · rintro ⟨hi, hj⟩
      exact ⟨i, hi, j, hj, rfl⟩

/-- Entries of the distance matrix listed in row-major order. -/
def gridEntries (dm : ℕ → ℕ → ℚ) (nA nB : ℕ) : List ℚ :=
  (grid nA nB).map (fun p => dm p.1 p.2)

/-- Python dict assignment `mapping[f] = s` on an association list: overwrite
an existing binding of `f`, else append the new binding. -/
def dictInsert (acc : List (ℕ × ℕ)) (f s : ℕ) : List (ℕ × ℕ) :=
  if acc.any (fun p => p.1 == f) then
    acc.map (fun p => if p.1 == f then (f, s) else p)
  else acc ++ [(f, s)]

/-- One-pass greedy assignment loop of `Fragmenstein.get_positional_mapping`
(the `while 1 == 1` loop).  State per iteration: the distance matrix `dm`
(a function, mutated by row/column invalidation) and the accumulated
mapping `acc`.  Each iteration takes the global minimum `d = np.amin(dm)`
(`none` when the matrix has no entries: `np.amin` raises on an empty
array), breaks when `d > cutoff`, otherwise records the first row-major
position attaining `d` (`np.where(dm == d)`, taking `w[0][0], w[1][0]`)
and overwrites its row and column with the sentinel `inval`
(`dm[f, :] = 999`, `dm[:, s] = 999` in the source).  The loop has no
intrinsic bound, so we recurse on explicit fuel; `none` also encodes a run
that has not terminated within the given fuel. -/
def gpmAux (inval cutoff : ℚ) (nA nB : ℕ) :
    ℕ → (ℕ → ℕ → ℚ) → List (ℕ × ℕ) → Option (List (ℕ × ℕ))
  | 0, _, _ => none
  | fuel + 1, dm, acc =>
    match (gridEntries dm nA nB).min? with
    | none => none
    | some d =>
      if cutoff < d then some acc
      else
        match (grid nA nB).find? (fun p => dm p.1 p.2 == d) with
        | none => none
        | some fs =>
          gpmAux inval cutoff nA nB fuel
            (fun i j => if i = fs.1 ∨ j = fs.2 then inval else dm i j)
            (dictInsert acc fs.1 fs.2)

/-- Distance matrix built by `get_positional_mapping` from the two
conformers, in squared form.  Out-of-range indices never arise for
positions inside `grid A.length B.length`. -/
def sqDistMatrix (A B : List Pt) : ℕ → ℕ → ℚ :=
  fun i j => sqDist (A.getD i ⟨0, 0, 0⟩) (B.getD j ⟨0, 0, 0⟩)

/-- Embedding of `Fragmenstein.get_positional_mapping(mol_A, mol_B, cutoff)`.
Conformers are the position lists `A` and `B`.  The source compares true
Euclidean distances `d` with `cutoff` and invalidates with the sentinel
`999`; since `x ↦ x^2` is strictly monotone on nonnegative reals and all
distances are nonnegative, the source's run for `cutoff ≥ 0` is mirrored
entry-for-entry by running the same loop on squared distances with squared
cutoff and sentinel `999*999` (minima occur at the same positions, the break
test `d > cutoff` becomes `d² > cutoff²`).  For `cutoff < 0` the source
breaks on the very first iteration (every distance is ≥ 0 > cutoff) and
returns the empty mapping, unless the matrix is empty, in which case
`np.amin` raises.  `fuel` bounds the number of loop iterations; `none`
means the run raised or did not finish within `fuel` iterations. -/
def get_positional_mapping (A B : List Pt) (cutoff : ℚ) (fuel : ℕ) :
    Option (List (ℕ × ℕ)) :=
  if cutoff < 0 then
    if A.length = 0 ∨ B.length = 0 then none else some []
  else gpmAux (999 * 999) (cutoff * cutoff) A.length B.length fuel (sqDistMatrix A B) []

/-! ### Facts about `List.min?` over the rationals -/

theorem minQ_mem {l : List ℚ} {d : ℚ} (h : l.min? = some d) : d ∈ l :=
  List.min?_mem (fun a b => min_choice a b) h

theorem minQ_le {l : List ℚ} {d : ℚ} (h : l.min? = some d) :
    ∀ b ∈ l, d ≤ b := by
  intro b hb
  have h2 : d ≤ d ↔ ∀ e ∈ l, d ≤ e := List.le_min?_iff (fun a b c => le_min_iff) h
  exact h2.1 le_rfl b hb

theorem mem_gridEntries {dm : ℕ → ℕ → ℚ} {nA nB : ℕ} {p : ℕ × ℕ}
    (hp : p ∈ grid nA nB) : dm p.1 p.2 ∈ gridEntries dm nA nB :=
  List.mem_map_of_mem _ hp

/-! ### Invariants of the greedy loop -/

/-- Keys of the accumulated mapping (mol A atom indices). -/
def keysOf (acc : List (ℕ × ℕ)) : List ℕ := acc.map Prod.fst

/-- Values of the accumulated mapping (mol B atom indices). -/
def valsOf (acc : List (ℕ × ℕ)) : List ℕ := acc.map Prod.snd

/-- Loop invariant: keys and values of the mapping so far are distinct, and
every matrix position in an already-used row or column holds the
invalidation sentinel. -/
def GInv (inval : ℚ) (dm : ℕ → ℕ → ℚ) (acc : List (ℕ × ℕ)) : Prop :=
  (keysOf acc).Nodup ∧ (valsOf acc).Nodup ∧
    ∀ i j : ℕ, (i ∈ keysOf acc ∨ j ∈ valsOf acc) → dm i j = inval

theorem dictInsert_of_fresh {acc : List (ℕ × ℕ)} {f s : ℕ}
    (h : f ∉ keysOf acc) : dictInsert acc f s = acc ++ [(f, s)] := by
  have hany : acc.any (fun p => p.1 == f) = false := by
    rw [List.any_eq_false]
    intro p hp
    simp only [beq_iff_eq]
    intro hpf
    apply h
    rw [← hpf]
    exact List.mem_map_of_mem Prod.fst hp
  simp [dictInsert, hany]

/-- In the fresh regime (`cutoff < inval`), every terminating run of the
greedy loop extends the invariant, so the final mapping has distinct keys
and distinct values. -/
theorem gpmAux_nodup_of_lt {inval cutoff : ℚ} (hlt : cutoff < inval)
    (nA nB : ℕ) :
    ∀ (fuel : ℕ) (dm : ℕ → ℕ → ℚ) (acc m : List (ℕ × ℕ)),
      GInv inval dm acc →
      gpmAux inval cutoff nA nB fuel dm acc = some m →
      (keysOf m).Nodup ∧ (valsOf m).Nodup := by
  intro fuel
  induction fuel with
  | zero =>
    intro dm acc m _ h
    simp [gpmAux] at h
  | succ n ih =>
    intro dm acc m hinv h
    rw [gpmAux] at h
    split at h
    · exact absurd h (by simp)
    · rename_i d hmin
      split at h
      · rename_i hbreak
        cases h
        exact ⟨hinv.1, hinv.2.1⟩
      · rename_i hbreak
        split at h
        · exact absurd h (by simp)
        · rename_i fs hfind
          have hfs : dm fs.1 fs.2 = d := by
            have hb := List.find?_some hfind
            simpa using hb
          have hdlt : d < inval := lt_of_le_of_lt (not_lt.mp hbreak) hlt
          have hknotin : fs.1 ∉ keysOf acc := by
            intro hk
            have := hinv.2.2 fs.1 fs.2 (Or.inl hk)
            rw [hfs] at this
            exact absurd this (ne_of_lt hdlt)
          have hvnotin : fs.2 ∉ valsOf acc := by
            intro hv
            have := hinv.2.2 fs.1 fs.2 (Or.inr hv)
            rw [hfs] at this
            exact absurd this (ne_of_lt hdlt)
          rw [dictInsert_of_fresh hknotin] at h
          refine ih _ _ _ ?_ h
          refine ⟨?_, ?_, ?_⟩
          · have hk2 : keysOf (acc ++ [(fs.1, fs.2)]) = keysOf acc ++ [fs.1] := by
              simp [keysOf]
            rw [hk2, List.nodup_append]
            refine ⟨hinv.1, List.nodup_singleton _, ?_⟩
            intro a ha hb
            have hab : a = fs.1 := by simpa using hb
            exact hknotin (hab ▸ ha)
          · have hv2 : valsOf (acc ++ [(fs.1, fs.2)]) = valsOf acc ++ [fs.2] := by
              simp [valsOf]
            rw [hv2, List.nodup_append]
            refine ⟨hinv.2.1, List.nodup_singleton _, ?_⟩
            intro a ha hb
            have hab : a = fs.2 := by simpa using hb
            exact hvnotin (hab ▸ ha)
          · intro i j hij
            by_cases hc : i = fs.1 ∨ j = fs.2
            · simp [hc]
            · push_neg at hc
              have hold : i ∈ keysOf acc ∨ j ∈ valsOf acc := by
                rcases hij with hk | hv
                · left
                  simpa [keysOf, hc.1] using hk
                · right
                  simpa [valsOf, hc.2] using hv
              have hdm := hinv.2.2 i j hold
              simp only [hc.1, hc.2, or_self, if_false]
              simpa [hc.1, hc.2] using hdm

/-- Once an invalidated (sentinel-valued) position exists inside the matrix
and the sentinel does not exceed the cutoff, the loop can never take its
break branch again, so it never returns. -/
theorem gpmAux_none_of_inval_le {inval cutoff : ℚ} (hle : inval ≤ cutoff)
    (nA nB : ℕ) :
    ∀ (fuel : ℕ) (dm : ℕ → ℕ → ℚ) (acc : List (ℕ × ℕ)),
      (∃ p ∈ grid nA nB, dm p.1 p.2 = inval) →
      gpmAux inval cutoff nA nB fuel dm acc = none := by
  intro fuel
  induction fuel with
  | zero => intro dm acc _; rfl
  | succ n ih =>
    intro dm acc hex
    obtain ⟨p, hp, hpe⟩ := hex
    have hmem : inval ∈ gridEntries dm nA nB := hpe ▸ mem_gridEntries hp
    rw [gpmAux]
    split
    · rfl
    · rename_i d hmin
      have hdle : d ≤ cutoff := le_trans (minQ_le hmin inval hmem) hle
      rw [if_neg (not_lt.mpr hdle)]
      have hdmem : d ∈ gridEntries dm nA nB := minQ_mem hmin
      obtain ⟨q, hq, hqd⟩ := List.mem_map.mp hdmem
      split
      · rfl
      · rename_i fs hfind
        apply ih
        refine ⟨fs, List.mem_of_find?_eq_some hfind, ?_⟩
        simp

/-- CLAIM C3.  For every pair of conformers and every cutoff, whenever
`get_positional_mapping` returns a mapping, that mapping is functional (no
A-atom index occurs twice as a key) and injective (no two A atoms map to
the same B atom).  A run that raises or never terminates returns `none`
and is not constrained. -/
theorem positional_mapping_injective
    (A B : List Pt) (cutoff : ℚ) (fuel : ℕ) (m : List (ℕ × ℕ))
    (h : get_positional_mapping A B cutoff fuel = some m) :
    (m.map Prod.fst).Nodup ∧ (m.map Prod.snd).Nodup := by
  unfold get_positional_mapping at h
  by_cases hneg : cutoff < 0
  · rw [if_pos hneg] at h
    by_cases hz : A.length = 0 ∨ B.length = 0
    · rw [if_pos hz] at h; exact absurd h (by simp)
    · rw [if_neg hz] at h
      cases h
      simp
  · rw [if_neg hneg] at h
    rcases lt_or_le (cutoff * cutoff) (999 * 999) with hlt | hge
    · have := gpmAux_nodup_of_lt hlt A.length B.length fuel (sqDistMatrix A B) [] m
        ⟨by simp [keysOf], by simp [valsOf], fun i j hij => by
          simp [keysOf, valsOf] at hij⟩ h
      simpa [keysOf, valsOf] using this
    · cases fuel with
      | zero => exact absurd h (by simp [gpmAux])
      | succ n =>
        rw [gpmAux] at h
        split at h
        · exact absurd h (by simp)
        · rename_i d hmin
          split at h
          · cases h
            simp
          · split at h
            · exact absurd h (by simp)
            · rename_i fs hfind
              rw [gpmAux_none_of_inval_le hge A.length B.length n _ _
                ⟨fs, List.mem_of_find?_eq_some hfind, by simp⟩] at h
              exact absurd h (by simp)

unseal Rat.mul Rat.add Rat.sub Rat.inv in
/-- Witness for C3 at a concrete input: two atoms of A match two atoms of B
within the default 2 length-unit cutoff, and the returned mapping has
distinct keys and distinct values. -/
theorem positional_mapping_injective_witness :
    get_positional_mapping [⟨0,0,0⟩, ⟨10,0,0⟩] [⟨0,1,0⟩, ⟨10,1,0⟩] 2 5 =
        some [(0, 0), (1, 1)] ∧
      (([((0:ℕ),(0:ℕ)), (1, 1)]).map Prod.fst).Nodup ∧
      (([((0:ℕ),(0:ℕ)), (1, 1)]).map Prod.snd).Nodup := by
  have h : get_positional_mapping [⟨0,0,0⟩, ⟨10,0,0⟩] [⟨0,1,0⟩, ⟨10,1,0⟩] 2 5 =
      some [(0, 0), (1, 1)] := by decide
  exact ⟨h, positional_mapping_injective _ _ _ _ _ h⟩

/-! ### Single-step unfolding lemmas for the greedy loop -/

theorem gpmAux_step_break {inval cutoff : ℚ} {nA nB fuel : ℕ}
    {dm : ℕ → ℕ → ℚ} {acc : List (ℕ × ℕ)} {d : ℚ}
    (hmin : (gridEntries dm nA nB).min? = some d) (hbreak : cutoff < d) :
    gpmAux inval cutoff nA nB (fuel + 1) dm acc = some acc := by
  rw [gpmAux]
  simp only [hmin, if_pos hbreak]

theorem gpmAux_step_pick {inval cutoff : ℚ} {nA nB fuel : ℕ}
    {dm : ℕ → ℕ → ℚ} {acc : List (ℕ × ℕ)} {d : ℚ} {fs : ℕ × ℕ}
    (hmin : (gridEntries dm nA nB).min? = some d) (hle : ¬ cutoff < d)
    (hfind : (grid nA nB).find? (fun p => dm p.1 p.2 == d) = some fs) :
    gpmAux inval cutoff nA nB (fuel + 1) dm acc =
      gpmAux inval cutoff nA nB fuel
        (fun i j => if i = fs.1 ∨ j = fs.2 then inval else dm i j)
        (dictInsert acc fs.1 fs.2) := by
  rw [gpmAux]
  simp only [hmin, if_neg hle, hfind]

/-! ### First row-major position reaching the minimum (C4 machinery) -/

theorem find?_range_eq (nB l : ℕ) (q : ℕ → Bool) (hl : l < nB)
    (hfail : ∀ j, j < l → q j = false) (hq : q l = true) :
    (List.range nB).find? q = some l := by
  have hsplit : List.range nB = List.range l ++ (List.range (nB - l)).map (l + ·) := by
    rw [← List.range_add]
    congr 1
    omega
  rw [hsplit, List.find?_append]
  have h1 : (List.range l).find? q = none := by
    rw [List.find?_eq_none]
    intro x hx
    simp [hfail x (List.mem_range.mp hx)]
  rw [h1, Option.none_or]
  have h2 : nB - l = (nB - l - 1) + 1 := by omega
  rw [h2, List.range_succ_eq_map, List.map_cons]
  rw [List.find?_cons_of_pos _ (by simpa using hq)]
  simp

theorem find?_grid_eq (nA nB k l : ℕ) (q : ℕ × ℕ → Bool)
    (hk : k < nA) (hl : l < nB)
    (hfail1 : ∀ i j, i < k → q (i, j) = false)
    (hfail2 : ∀ j, j < l → q (k, j) = false)
    (hq : q (k, l) = true) :
    (grid nA nB).find? q = some (k, l) := by
  have hsplit : List.range nA = List.range k ++ (List.range (nA - k)).map (k + ·) := by
    rw [← List.range_add]
    congr 1
    omega
  rw [grid, hsplit, List.flatMap_append, List.find?_append]
  have h1 : ((List.range k).flatMap fun i => (List.range nB).map fun j => (i, j)).find? q
      = none := by
    rw [List.find?_eq_none]
    intro x hx
    simp only [List.mem_flatMap, List.mem_map, List.mem_range] at hx
    obtain ⟨i, hi, j, hj, rfl⟩ := hx
    simp [hfail1 i j hi]
  rw [h1, Option.none_or]
  have h2 : nA - k = (nA - k - 1) + 1 := by omega
  rw [h2, List.range_succ_eq_map, List.map_cons, List.flatMap_cons, List.find?_append]
  have h3 : ((List.range nB).map fun j => (k + 0, j)).find? q = some (k, l) := by
    rw [List.find?_map]
    have h4 : (List.range nB).find? (q ∘ fun j => (k + 0, j)) = some l := by
      apply find?_range_eq nB l _ hl
      · intro j hj
        simpa using hfail2 j hj
      · simpa using hq
    rw [h4]
    simp
  rw [h3]
  simp

/-! ### Identity mapping on identical conformers (C4) -/

/-- Identity correspondence on the first `n` atom indices. -/
def idMap (n : ℕ) : List (ℕ × ℕ) := (List.range n).map (fun i => (i, i))

theorem keysOf_idMap (k : ℕ) : keysOf (idMap k) = List.range k := by
  simp only [keysOf, idMap, List.map_map]
  have hid : (Prod.fst ∘ fun i : ℕ => (i, i)) = id := rfl
  rw [hid, List.map_id]

theorem idMap_succ (k : ℕ) : idMap (k + 1) = idMap k ++ [(k, k)] := by
  simp [idMap, List.range_succ]

/-- State of the distance matrix after the first `k` identity picks of the
greedy loop: rows and columns below `k` hold the sentinel, the rest is the
original squared-distance matrix. -/
def maskedMatrix (A B : List Pt) (inval : ℚ) (k : ℕ) : ℕ → ℕ → ℚ :=
  fun i j => if i < k ∨ j < k then inval else sqDistMatrix A B i j

theorem maskedMatrix_invalidate (A B : List Pt) (inval : ℚ) (k : ℕ) :
    (fun i j => if i = k ∨ j = k then inval else maskedMatrix A B inval k i j)
      = maskedMatrix A B inval (k + 1) := by
  funext i j
  unfold maskedMatrix
  rcases Decidable.em (i = k ∨ j = k) with hc | hc
  · rw [if_pos hc, if_pos (by omega)]
  · rw [if_neg hc]
    rcases Decidable.em (i < k ∨ j < k) with hc2 | hc2
    · rw [if_pos hc2, if_pos (by omega)]
    · rw [if_neg hc2, if_neg (by omega)]

theorem maskedMatrix_nonneg (A B : List Pt) (k : ℕ) (i j : ℕ) :
    0 ≤ maskedMatrix A B (999 * 999) k i j := by
  unfold maskedMatrix
  split
  · norm_num
  · exact sqDist_nonneg _ _

theorem gpm_identity_aux (A B : List Pt) (cutoff : ℚ)
    (h0 : 0 ≤ cutoff) (h999 : cutoff < 999)
    (hA : 0 < A.length) (hB : 0 < B.length)
    (hshared : ∀ i, i < min A.length B.length →
      A.getD i ⟨0, 0, 0⟩ = B.getD i ⟨0, 0, 0⟩) :
    ∀ (m k : ℕ), k + m = min A.length B.length →
      ∀ fuel, m < fuel →
      gpmAux (999 * 999) (cutoff * cutoff) A.length B.length fuel
        (maskedMatrix A B (999 * 999) k) (idMap k)
        = some (idMap (min A.length B.length)) := by
  have hcc : cutoff * cutoff < 999 * 999 := by
    have := mul_self_lt_mul_self h0 h999
    simpa using this
  intro m
  induction m with
  | zero =>
    intro k hk fuel hfuel
    cases fuel with
    | zero => omega
    | succ f =>
      have hall : ∀ p ∈ grid A.length B.length,
          maskedMatrix A B (999 * 999) k p.1 p.2 = 999 * 999 := by
        intro p hp
        have hpg := mem_grid.mp hp
        unfold maskedMatrix
        rw [if_pos (by omega)]
      have hne : (0, 0) ∈ grid A.length B.length := by
        rw [mem_grid]
        constructor <;> omega
      cases hmin : (gridEntries (maskedMatrix A B (999 * 999) k)
          A.length B.length).min? with
      | none =>
        rw [List.min?_eq_none_iff] at hmin
        have hmem : maskedMatrix A B (999 * 999) k 0 0 ∈
            gridEntries (maskedMatrix A B (999 * 999) k) A.length B.length :=
          mem_gridEntries hne
        rw [hmin] at hmem
        exact absurd hmem (List.not_mem_nil _)
      | some d =>
        have hdmem := minQ_mem hmin
        obtain ⟨q, hq, hqd⟩ := List.mem_map.mp hdmem
        have hdval : d = 999 * 999 := by rw [← hqd]; exact hall q hq
        rw [gpmAux_step_break hmin (by rw [hdval]; exact hcc)]
        have hkn : k = min A.length B.length := by omega
        rw [hkn]
  | succ m ih =>
    intro k hk fuel hfuel
    cases fuel with
    | zero => omega
    | succ f =>
      have hkA : k < A.length := by omega
      have hkB : k < B.length := by omega
      have hdiag : maskedMatrix A B (999 * 999) k k k = 0 := by
        unfold maskedMatrix
        rw [if_neg (by omega)]
        unfold sqDistMatrix
        rw [hshared k (by omega)]
        exact sqDist_self _
      have hkg : (k, k) ∈ grid A.length B.length := by
        rw [mem_grid]
        exact ⟨hkA, hkB⟩
      cases hmin : (gridEntries (maskedMatrix A B (999 * 999) k)
          A.length B.length).min? with
      | none =>
        rw [List.min?_eq_none_iff] at hmin
        have hmem : maskedMatrix A B (999 * 999) k k k ∈
            gridEntries (maskedMatrix A B (999 * 999) k) A.length B.length :=
          mem_gridEntries hkg
        rw [hmin] at hmem
        exact absurd hmem (List.not_mem_nil _)
      | some d =>
        have hd0 : d = 0 := by
          have hle : d ≤ 0 := by
            have hmem0 : maskedMatrix A B (999 * 999) k k k ∈
                gridEntries (maskedMatrix A B (999 * 999) k) A.length B.length :=
              mem_gridEntries hkg
            rw [hdiag] at hmem0
            exact minQ_le hmin 0 hmem0
          have hge : 0 ≤ d := by
            have hdmem := minQ_mem hmin
            obtain ⟨q, hq, hqd⟩ := List.mem_map.mp hdmem
            rw [← hqd]
            exact maskedMatrix_nonneg A B k q.1 q.2
          exact le_antisymm hle hge
        subst hd0
        have hfind : (grid A.length B.length).find?
            (fun p => maskedMatrix A B (999 * 999) k p.1 p.2 == 0) = some (k, k) := by
          apply find?_grid_eq A.length B.length k k _ hkA hkB
          · intro i j hi
            have : maskedMatrix A B (999 * 999) k i j = 999 * 999 := by
              unfold maskedMatrix
              rw [if_pos (Or.inl hi)]
            simp [this]
          · intro j hj
            have : maskedMatrix A B (999 * 999) k k j = 999 * 999 := by
              unfold maskedMatrix
              rw [if_pos (Or.inr hj)]
            simp [this]
          · simp [hdiag]
        rw [gpmAux_step_pick hmin (by rw [not_lt]; exact mul_self_nonneg cutoff) hfind]
        have hfresh : (k : ℕ) ∉ keysOf (idMap k) := by
          rw [keysOf_idMap]
          simp
        rw [show ((k, k) : ℕ × ℕ).1 = k from rfl, show ((k, k) : ℕ × ℕ).2 = k from rfl]
        rw [dictInsert_of_fresh hfresh, ← idMap_succ, maskedMatrix_invalidate]
        exact ih (k + 1) (by omega) f (by omega)

/-- CLAIM C4 (amended).  If the two conformers agree on every shared atom
index, both molecules are nonempty, and `0 ≤ cutoff < 999` (strictly below
the source's invalidation sentinel), then `get_positional_mapping` returns
exactly the identity mapping on the shared indices, given enough fuel. -/
theorem identity_mapping_on_shared_indices
    (A B : List Pt) (cutoff : ℚ) (fuel : ℕ)
    (hA : 0 < A.length) (hB : 0 < B.length)
    (h0 : 0 ≤ cutoff) (h999 : cutoff < 999)
    (hfuel : min A.length B.length < fuel)
    (hshared : ∀ i, i < min A.length B.length →
      A.getD i ⟨0, 0, 0⟩ = B.getD i ⟨0, 0, 0⟩) :
    get_positional_mapping A B cutoff fuel
      = some (idMap (min A.length B.length)) := by
  unfold get_positional_mapping
  rw [if_neg (not_lt.mpr h0)]
  have h := gpm_identity_aux A B cutoff h0 h999 hA hB hshared
    (min A.length B.length) 0 (by omega) fuel hfuel
  have hmask : maskedMatrix A B (999 * 999) 0 = sqDistMatrix A B := by
    funext i j
    unfold maskedMatrix
    rw [if_neg (by omega)]
  rw [hmask] at h
  simpa [idMap] using h

/-- Divergence of `get_positional_mapping` at a given cutoff: the loop
returns no value no matter how much fuel it is given (the source spins
forever re-selecting the 999 sentinel). -/
def gpm_diverges (A B : List Pt) (cutoff : ℚ) : Prop :=
  ∀ fuel : ℕ, get_positional_mapping A B cutoff fuel = none

unseal Rat.mul Rat.add Rat.sub Rat.inv in
/-- Counterexample to CLAIM C4 as stated: at cutoff `999` (≥ the source's
sentinel) on two single-atom molecules with identical conformers, the loop
never returns, so in particular it does not return the identity mapping for
any amount of fuel. -/
theorem identity_mapping_counterexample :
    gpm_diverges [(⟨0, 0, 0⟩ : Pt)] [(⟨0, 0, 0⟩ : Pt)] 999 := by
  intro fuel
  unfold get_positional_mapping
  rw [if_neg (by norm_num)]
  cases fuel with
  | zero => rfl
  | succ n =>
    have hmin : (gridEntries
        (sqDistMatrix [(⟨0, 0, 0⟩ : Pt)] [(⟨0, 0, 0⟩ : Pt)]) 1 1).min?
        = some 0 := by decide
    have hfind : (grid 1 1).find?
        (fun p => sqDistMatrix [(⟨0, 0, 0⟩ : Pt)] [(⟨0, 0, 0⟩ : Pt)] p.1 p.2 == 0)
        = some (0, 0) := by decide
    rw [show [(⟨0, 0, 0⟩ : Pt)].length = 1 from rfl]
    rw [gpmAux_step_pick hmin (by norm_num) hfind]
    apply gpmAux_none_of_inval_le le_rfl
    refine ⟨(0, 0), by rw [mem_grid]; omega, ?_⟩
    simp

unseal Rat.mul Rat.add Rat.sub Rat.inv in
/-- Witness for the amended C4 theorem at a concrete input: two identical
two-atom conformers map by the identity for the default cutoff 2. -/
theorem identity_mapping_witness :
    get_positional_mapping [(⟨0, 0, 0⟩ : Pt), ⟨5, 5, 5⟩]
        [(⟨0, 0, 0⟩ : Pt), ⟨5, 5, 5⟩] 2 3 = some [(0, 0), (1, 1)] := by
  have h := identity_mapping_on_shared_indices
    [(⟨0, 0, 0⟩ : Pt), ⟨5, 5, 5⟩] [(⟨0, 0, 0⟩ : Pt), ⟨5, 5, 5⟩] 2 3
    (by norm_num) (by norm_num) (by norm_num) (by norm_num) (by norm_num)
    (fun i hi => rfl)
  simpa [idMap] using h

/-! ### Molecular graph model -/

/-- Atom of a molecular graph.  RDKit dynamic properties used by the core
(`_Stdev`, `_Origin`, `_Category`) are modeled as total fields; the source
raises when reading an unset property, so defaults only stand in for the
states the algorithms actually produce. -/
structure Atom where
  symbol : String
  formalCharge : ℤ := 0
  stdev : ℚ := 0
  origin : String := "none"
  category : String := ""
deriving DecidableEq, Repr

/-- Molecular graph with one conformer.  `name` is the `_Name` property
(`none` models `HasProp('_Name') == False`); `pos` is the conformer's
position array, aligned with `atoms` by index; `bonds` is the undirected
bond list. -/
structure Mol where
  name : Option String := none
  atoms : List Atom := []
  pos : List Pt := []
  bonds : List (ℕ × ℕ) := []
deriving DecidableEq, Repr

/-! ### Substructure matcher (`_get_atom_maps` / `get_mcs_mapping`) -/

/-- The `is_dummy` lambda of `_get_atom_maps`:
`mol.GetAtomWithIdx(at).GetSymbol() == '*'`. -/
def is_dummy (mol : Mol) (a : ℕ) : Bool :=
  (mol.atoms.getD a { symbol := "" }).symbol == "*"

/-- The `all_bar_dummy` lambda of `_get_atom_maps`: keep a pair when both
atoms are wildcards or neither is. -/
def all_bar_dummy (molA molB : Mol) (Aat Bat : ℕ) : Bool :=
  (is_dummy molA Aat && is_dummy molB Bat) ||
    !(is_dummy molA Aat || is_dummy molB Bat)

/-- Embedding of `Fragmenstein._get_atom_maps` downstream of the toolkit:
`rdFMCS.FindMCS` and `GetSubstructMatches` are external, so the two
substructure-match lists (`molA.GetSubstructMatches(common)` and
`molB.GetSubstructMatches(common)`, each a list of atom-index tuples) enter
as the oracle inputs `subA` and `subB`.  The source then zips every A-match
with every B-match, keeping only pairs allowed by `all_bar_dummy`. -/
def get_atom_maps (molA molB : Mol) (subA subB : List (List ℕ)) :
    List (List (ℕ × ℕ)) :=
  subA.flatMap (fun ma => subB.map (fun mb =>
    (ma.zip mb).filter (fun p => all_bar_dummy molA molB p.1 p.2)))

inductive AtomCompare
  | CompareAny
  | CompareElements
deriving DecidableEq, Repr

inductive BondCompare
  | CompareAny
  | CompareOrder
deriving DecidableEq, Repr

inductive RingCompare
  | PermissiveRingFusion
deriving DecidableEq, Repr

/-- One configuration of the MCS ladder (`dict(atomCompare=..., ...)`). -/
structure MCSMode where
  atomCompare : AtomCompare
  bondCompare : BondCompare
  ringCompare : RingCompare
  ringMatchesRingOnly : Bool
deriving DecidableEq, Repr

/-- The fixed six-configuration ladder `Fragmenstein.matching_modes`, in
source order. -/
def matching_modes : List MCSMode :=
  [⟨AtomCompare.CompareAny, BondCompare.CompareAny,
      RingCompare.PermissiveRingFusion, false⟩,
   ⟨AtomCompare.CompareAny, BondCompare.CompareOrder,
      RingCompare.PermissiveRingFusion, false⟩,
   ⟨AtomCompare.CompareElements, BondCompare.CompareOrder,
      RingCompare.PermissiveRingFusion, false⟩,
   ⟨AtomCompare.CompareAny, BondCompare.CompareAny,
      RingCompare.PermissiveRingFusion, true⟩,
   ⟨AtomCompare.CompareAny, BondCompare.CompareOrder,
      RingCompare.PermissiveRingFusion, true⟩,
   ⟨AtomCompare.CompareElements, BondCompare.CompareOrder,
      RingCompare.PermissiveRingFusion, true⟩]

/-- The `neolax` filter of `get_mcs_mapping`: lax correspondences that
contain some strict correspondence (`len(set(s) - set(l)) == 0`). -/
def survivors (strict lax : List (List (ℕ × ℕ))) : List (List (ℕ × ℕ)) :=
  lax.filter (fun l => strict.any (fun s => s.all (fun p => l.contains p)))

/-- The `for mode in self.matching_modes` loop of `get_mcs_mapping`:
`continue` when no lax correspondence survives, else return the first
survivor with the winning mode; fall through to `raise ValueError` when the
ladder is exhausted.  `strict` and `laxOf` are the outputs of
`_get_atom_maps` for the strict baseline parameters and for each ladder
mode respectively. -/
def mcsLoop (strict : List (List (ℕ × ℕ)))
    (laxOf : MCSMode → List (List (ℕ × ℕ))) :
    List MCSMode → Except Unit (List (ℕ × ℕ) × MCSMode)
  | [] => Except.error ()
  | mode :: rest =>
    if survivors strict (laxOf mode) = [] then mcsLoop strict laxOf rest
    else Except.ok ((survivors strict (laxOf mode)).headD [], mode)

/-- Embedding of `Fragmenstein.get_mcs_mapping` downstream of the toolkit.
The source returns `dict(neolax[0])`; we return the correspondence as the
underlying pair list (the keys are distinct in every toolkit-produced
match, so the dict conversion is a change of representation only).
`Except.error ()` is the `ValueError` (`MatchingExhaustedError`). -/
def get_mcs_mapping (strict : List (List (ℕ × ℕ)))
    (laxOf : MCSMode → List (List (ℕ × ℕ))) :
    Except Unit (List (ℕ × ℕ) × MCSMode) :=
  mcsLoop strict laxOf matching_modes

theorem mcsLoop_error_iff (strict : List (List (ℕ × ℕ)))
    (laxOf : MCSMode → List (List (ℕ × ℕ))) :
    ∀ modes, mcsLoop strict laxOf modes = Except.error () ↔
      ∀ mode ∈ modes, survivors strict (laxOf mode) = [] := by
  intro modes
  induction modes with
  | nil => simp [mcsLoop]
  | cons m rest ih =>
    rw [mcsLoop]
    by_cases hs : survivors strict (laxOf m) = []
    · rw [if_pos hs]
      simp [hs, ih]
    · rw [if_neg hs]
      simp [hs]

theorem mcsLoop_ok_characterization (strict : List (List (ℕ × ℕ)))
    (laxOf : MCSMode → List (List (ℕ × ℕ))) :
    ∀ modes (l : List (ℕ × ℕ)) (mode : MCSMode),
      mcsLoop strict laxOf modes = Except.ok (l, mode) →
      ∃ k, modes.get? k = some mode ∧
        (∀ j, j < k → ∀ mj, modes.get? j = some mj →
          survivors strict (laxOf mj) = []) ∧
        survivors strict (laxOf mode) ≠ [] ∧
        l = (survivors strict (laxOf mode)).headD [] := by
  intro modes
  induction modes with
  | nil =>
    intro l mode h
    exact absurd h (by simp [mcsLoop])
  | cons m rest ih =>
    intro l mode h
    rw [mcsLoop] at h
    by_cases hs : survivors strict (laxOf m) = []
    · rw [if_pos hs] at h
      obtain ⟨k, hk, hbefore, hne, hl⟩ := ih l mode h
      refine ⟨k + 1, by simpa using hk, ?_, hne, hl⟩
      intro j hj mj hmj
      cases j with
      | zero =>
        simp at hmj
        rw [← hmj]
        exact hs
      | succ j2 =>
        exact hbefore j2 (by omega) mj (by simpa using hmj)
    · rw [if_neg hs] at h
      cases h
      exact ⟨0, by simp, by omega, hs, rfl⟩

/-- CLAIM C6.  `get_mcs_mapping` walks the fixed six-configuration ladder in
order: it raises the matching-exhausted error exactly when no configuration
yields a surviving correspondence, and a successful return carries the
first surviving correspondence of the first configuration (in ladder
order) that has any survivor, together with that configuration. -/
theorem mcs_ladder_first_survivor (strict : List (List (ℕ × ℕ)))
    (laxOf : MCSMode → List (List (ℕ × ℕ))) :
    (get_mcs_mapping strict laxOf = Except.error () ↔
      ∀ mode ∈ matching_modes, survivors strict (laxOf mode) = []) ∧
    (∀ (l : List (ℕ × ℕ)) (mode : MCSMode),
      get_mcs_mapping strict laxOf = Except.ok (l, mode) →
      ∃ k, matching_modes.get? k = some mode ∧
        (∀ j, j < k → ∀ mj, matching_modes.get? j = some mj →
          survivors strict (laxOf mj) = []) ∧
        survivors strict (laxOf mode) ≠ [] ∧
        l = (survivors strict (laxOf mode)).headD []) :=
  ⟨mcsLoop_error_iff strict laxOf matching_modes,
   fun l mode => mcsLoop_ok_characterization strict laxOf matching_modes l mode⟩

theorem all_bar_dummy_eq_true_iff (molA molB : Mol) (x y : ℕ) :
    all_bar_dummy molA molB x y = true ↔ is_dummy molA x = is_dummy molB y := by
  unfold all_bar_dummy
  cases h1 : is_dummy molA x <;> cases h2 : is_dummy molB y <;> simp

theorem mem_survivors_mem_lax {strict lax : List (List (ℕ × ℕ))}
    {l : List (ℕ × ℕ)} (h : l ∈ survivors strict lax) : l ∈ lax :=
  (List.mem_filter.mp h).1

/-- CLAIM C5.  Every atom-index pair contained in the correspondence
returned by `get_mcs_mapping` (when the per-mode correspondences come from
`_get_atom_maps`, as in the source) relates a wildcard atom only to another
wildcard atom. -/
theorem mcs_mapping_respects_wildcards
    (molA molB : Mol) (strict : List (List (ℕ × ℕ)))
    (subsA subsB : MCSMode → List (List ℕ))
    (l : List (ℕ × ℕ)) (mode : MCSMode) (p : ℕ × ℕ)
    (hok : get_mcs_mapping strict
        (fun m => get_atom_maps molA molB (subsA m) (subsB m))
        = Except.ok (l, mode))
    (hp : p ∈ l) :
    is_dummy molA p.1 = is_dummy molB p.2 := by
  obtain ⟨k, hk, hbefore, hne, hl⟩ :=
    (mcs_ladder_first_survivor strict _).2 l mode hok
  have hmem : l ∈ survivors strict (get_atom_maps molA molB (subsA mode) (subsB mode)) := by
    cases hsv : survivors strict (get_atom_maps molA molB (subsA mode) (subsB mode)) with
    | nil => exact absurd hsv hne
    | cons a t =>
      rw [hsv] at hl
      rw [hl]
      simp
  have hlax : l ∈ get_atom_maps molA molB (subsA mode) (subsB mode) :=
    mem_survivors_mem_lax hmem
  unfold get_atom_maps at hlax
  rw [List.mem_flatMap] at hlax
  obtain ⟨ma, _, hmb⟩ := hlax
  rw [List.mem_map] at hmb
  obtain ⟨mb, _, hfil⟩ := hmb
  rw [← hfil] at hp
  have := (List.mem_filter.mp hp).2
  exact (all_bar_dummy_eq_true_iff molA molB p.1 p.2).mp this

/-- Concrete single-carbon molecule used by witnesses. -/
def molC : Mol :=
  { name := some "c1", atoms := [{ symbol := "C" }], pos := [⟨0, 0, 0⟩] }

/-- Witness for C5: with the strict baseline `[[(0,0)]]` and every ladder
mode producing the single substructure match `[0]` on a one-carbon
molecule, the first mode wins with correspondence `[(0,0)]`, and its only
pair relates two non-wildcard atoms. -/
theorem mcs_mapping_respects_wildcards_witness :
    get_mcs_mapping [[((0:ℕ), (0:ℕ))]]
        (fun m => get_atom_maps molC molC ((fun _ => [[0]]) m) ((fun _ => [[0]]) m))
        = Except.ok ([((0:ℕ), (0:ℕ))],
            (⟨AtomCompare.CompareAny, BondCompare.CompareAny,
              RingCompare.PermissiveRingFusion, false⟩ : MCSMode)) ∧
      ((0:ℕ), (0:ℕ)) ∈ [((0:ℕ), (0:ℕ))] ∧
      is_dummy molC 0 = is_dummy molC 0 := by
  refine ⟨by rfl, by decide, ?_⟩
  exact mcs_mapping_respects_wildcards molC molC [[((0:ℕ), (0:ℕ))]]
    (fun _ => [[0]]) (fun _ => [[0]]) [((0:ℕ), (0:ℕ))]
    (⟨AtomCompare.CompareAny, BondCompare.CompareAny,
      RingCompare.PermissiveRingFusion, false⟩ : MCSMode)
    ((0:ℕ), (0:ℕ)) (by rfl) (by decide)

/-- Witness for C6: at the same concrete instantiation the theorem's ok
branch produces the ladder characterization for the returned mode. -/
theorem mcs_ladder_first_survivor_witness :
    ∃ k, matching_modes.get? k = some
        (⟨AtomCompare.CompareAny, BondCompare.CompareAny,
          RingCompare.PermissiveRingFusion, false⟩ : MCSMode) ∧
      (∀ j, j < k → ∀ mj, matching_modes.get? j = some mj →
        survivors [[((0:ℕ), (0:ℕ))]]
          ((fun _ => [[((0:ℕ), (0:ℕ))]]) mj) = []) ∧
      survivors [[((0:ℕ), (0:ℕ))]]
        ((fun _ => [[((0:ℕ), (0:ℕ))]])
          (⟨AtomCompare.CompareAny, BondCompare.CompareAny,
            RingCompare.PermissiveRingFusion, false⟩ : MCSMode)) ≠ [] ∧
      [((0:ℕ), (0:ℕ))] = (survivors [[((0:ℕ), (0:ℕ))]]
        ((fun _ => [[((0:ℕ), (0:ℕ))]])
          (⟨AtomCompare.CompareAny, BondCompare.CompareAny,
            RingCompare.PermissiveRingFusion, false⟩ : MCSMode))).headD [] := by
  apply (mcs_ladder_first_survivor [[((0:ℕ), (0:ℕ))]]
    (fun _ => [[((0:ℕ), (0:ℕ))]])).2
  rfl

/-! ### Chimera element mutation (`make_chimera`, C1) -/

/-- The per-element maximum-valence table `v` of `make_chimera`; a missing
element raises `KeyError` in the source, hence `Option`. -/
def valence_v (s : String) : Option ℕ :=
  (([("F", 1), ("Br", 1), ("Cl", 1), ("H", 1), ("B", 3), ("C", 4),
     ("N", 3), ("O", 2), ("S", 2), ("Se", 2), ("P", 6)] :
    List (String × ℕ)).lookup s)

/-- Outcome of one iteration of the element-mutation loop in
`make_chimera` for one mapped atom pair. -/
inductive ChimeraAction
  | keep
  | skipDummy
  | skipNoFlex
  | skipHighValence
  | mutate (newSymbol : String) (newCharge : ℤ)
deriving DecidableEq, Repr

/-- Embedding of the body of the `for scaff_ai, follow_ai in
atom_map.items()` loop of `make_chimera` (source lines 183-202).
`ownedSymbol` and `ownedValence` are the scaffold atom's symbol and
explicit valence; `wantedSymbol` and `wantedCharge` are the matched
candidate atom's symbol and formal charge.  `keep` is the no-mutation path
when the symbols already agree; the three skip constructors are the
`continue` branches (candidate wildcard; candidate in the no-flex set
`{F, Br, Cl, C, H}` with positive valence surplus; scaffold valence above 4
with a non-phosphorus candidate); `mutate` replaces the atom with the
candidate element, setting formal charge `diff_valance` when positive and
otherwise keeping the charge copied from the candidate atom by
`Chem.Atom(wanted)`.  The `_Stdev` and `_Origin` provenance are carried
over unchanged on mutation in the source. -/
def chimera_step (ownedSymbol : String) (ownedValence : ℕ)
    (wantedSymbol : String) (wantedCharge : ℤ) : Option ChimeraAction :=
  if ownedSymbol == wantedSymbol then some ChimeraAction.keep
  else if wantedSymbol == "*" then some ChimeraAction.skipDummy
  else
    match valence_v wantedSymbol with
    | none => none
    | some vmax =>
      let diff : ℤ := (ownedValence : ℤ) - (vmax : ℤ)
      if (wantedSymbol ∈ ["F", "Br", "Cl", "C", "H"]) ∧ diff > 0 then
        some ChimeraAction.skipNoFlex
      else if ownedValence > 4 ∧ wantedSymbol ∉ ["P"] then
        some ChimeraAction.skipHighValence
      else some (ChimeraAction.mutate wantedSymbol
        (if diff > 0 then diff else wantedCharge))

/-- Counterexample to CLAIM C1 as stated.  A scaffold carbon with explicit
valence 4 whose MCS-mapped candidate atom is nitrogen is NOT skipped: the
no-flex test gates on the candidate's element (nitrogen, not in
`{F, Br, Cl, C, H}`), the high-valence test needs valence strictly above 4,
so the atom is mutated to nitrogen and given formal charge
`diff_valance = 4 - 3 = +1`; it does not remain carbon. -/
theorem chimera_mutation_counterexample :
    chimera_step "C" 4 "N" 0 = some (ChimeraAction.mutate "N" 1) := by decide

/-- CLAIM C1 (amended).  For a scaffold carbon of explicit valence 4 mapped
to a candidate nitrogen of any formal charge, `make_chimera` performs the
mutation: the chimera atom becomes nitrogen with formal charge +1 (the
valence surplus over nitrogen's maximum of 3); the no-flex skip does not
apply because it tests the candidate element, not the scaffold's. -/
theorem chimera_carbon_to_nitrogen_mutates (c : ℤ) :
    chimera_step "C" 4 "N" c = some (ChimeraAction.mutate "N" 1) := by
  rfl

/-! ### Attachment validation in the constructor (C10) -/

/-- Embedding of the attachment handling in `Fragmenstein.__init__`
(source lines 87-96).  `hasDummyMatch` is the toolkit's answer to
`self.initial_mol.HasSubstructMatch(self.dummy)` (per the class docstring:
the candidate contains a dummy atom); `attachment` is the optional
attachment molecule (a `Chem.Mol` is truthy exactly when it is not
`None`).  The result is the stored `self.attachement` together with
whether a `warn(...)` was emitted; no branch raises. -/
def init_attachment (hasDummyMatch : Bool) (attachment : Option Mol) :
    Option Mol × Bool :=
  if hasDummyMatch && attachment.isSome then (attachment, false)
  else if hasDummyMatch then (none, true)
  else if attachment.isSome then (none, true)
  else (none, false)

/-- CLAIM C10.  The constructor keeps the attachment exactly when the
candidate has a wildcard and an attachment was supplied; in each mismatched
case it warns, stores `None`, and proceeds (the function is total and never
raises); with both absent it silently stores `None`. -/
theorem init_attachment_spec (hasDummyMatch : Bool) (attachment : Option Mol) :
    (init_attachment hasDummyMatch attachment).1
        = (if hasDummyMatch && attachment.isSome then attachment else none) ∧
      (init_attachment hasDummyMatch attachment).2
        = (hasDummyMatch != attachment.isSome) := by
  cases hasDummyMatch <;> cases attachment <;> simp [init_attachment]

/-! ### Merging hits (`merge_hits`, C7 and C2) -/

/-- Errors of the pairwise merge: `MergeErr.connection` is Python's
`ConnectionError` (the spec's `ConnectivityError`, raised by
`_fragment_pairs` when the positional mapping is empty);
`MergeErr.other` stands for any other exception. -/
inductive MergeErr
  | connection
  | other
deriving DecidableEq, Repr

/-- Computable model of Python's blank test `name.strip() == ''`: the
string is empty or all whitespace. -/
def isBlank (s : String) : Bool := s.toList.all (fun c => c.isWhitespace)

/-- Renaming of one enumerated hit by the fallback-naming pass of
`merge_hits` (source lines 149-152): a hit with no `_Name` property or a
blank one is renamed in place to `hit{index}`. -/
def nameStep (p : ℕ × Mol) : Mol :=
  match p.2.name with
  | none => { p.2 with name := some ("hit" ++ toString p.1) }
  | some s =>
    if isBlank s then { p.2 with name := some ("hit" ++ toString p.1) }
    else p.2

/-- The fallback-naming pass over the whole hit list. -/
def nameHits (hits : List Mol) : List Mol := hits.enum.map nameStep

/-- First pass of `merge_hits`: iterate `merge_pair` over the hits,
deferring to `save_for_later` (the second component) each hit that raises
`ConnectionError`, and propagating any other exception.  `mp` is
`merge_pair` as an oracle: it performs the toolkit-backed fragment
splicing. -/
def first_pass (mp : Mol → Mol → Except MergeErr Mol) :
    Mol → List Mol → Except MergeErr (Mol × List Mol)
  | scaffold, [] => Except.ok (scaffold, [])
  | scaffold, f :: fs =>
    match mp scaffold f with
    | Except.ok s2 => first_pass mp s2 fs
    | Except.error MergeErr.connection =>
      (first_pass mp scaffold fs).map (fun r => (r.1, f :: r.2))
    | Except.error MergeErr.other => Except.error MergeErr.other

/-- Second pass of `merge_hits` over the deferred hits: a hit that raises
`ConnectionError` again has its name appended to `self.unmatched` (the
second component) with a non-fatal warning, and is excluded from the
scaffold. -/
def second_pass (mp : Mol → Mol → Except MergeErr Mol) :
    Mol → List Mol → Except MergeErr (Mol × List String)
  | scaffold, [] => Except.ok (scaffold, [])
  | scaffold, f :: fs =>
    match mp scaffold f with
    | Except.ok s2 => second_pass mp s2 fs
    | Except.error MergeErr.connection =>
      (second_pass mp scaffold fs).map
        (fun r => (r.1, (f.name.getD "") :: r.2))
    | Except.error MergeErr.other => Except.error MergeErr.other

/-- Embedding of `Fragmenstein.merge_hits(hits)` (source lines 147-166)
for an explicitly given hit list (the session passes the hits sorted by
descending atom count).  Python renames the caller's hit objects in place;
with state passing the updated hit list is returned as the third
component.  The scaffold seed is a copy of the first hit
(`Chem.Mol(hits[0])`); an empty hit list raises `IndexError` on `hits[0]`
(modeled `MergeErr.other`).  The `_Category` tagging that `_categorise`
performs on each fragmentanda's atoms happens inside the `mp` oracle and
is not tracked on the returned hit list. -/
def merge_hits (mp : Mol → Mol → Except MergeErr Mol) (hits : List Mol) :
    Except MergeErr (Mol × List String × List Mol) :=
  match nameHits hits with
  | [] => Except.error MergeErr.other
  | h0 :: rest =>
    match first_pass mp h0 rest with
    | Except.error e => Except.error e
    | Except.ok r1 =>
      match second_pass mp r1.1 r1.2 with
      | Except.error e => Except.error e
      | Except.ok r2 => Except.ok (r2.1, r2.2, nameHits hits)

theorem first_pass_error_other (mp : Mol → Mol → Except MergeErr Mol) :
    ∀ (fs : List Mol) (scaffold : Mol) (e : MergeErr),
      first_pass mp scaffold fs = Except.error e → e = MergeErr.other := by
  intro fs
  induction fs with
  | nil =>
    intro scaffold e h
    simp [first_pass] at h
  | cons f fs ih =>
    intro scaffold e h
    rw [first_pass] at h
    split at h
    · exact ih _ _ h
    · cases hfp : first_pass mp scaffold fs with
      | ok r => rw [hfp] at h; simp [Except.map] at h
      | error e2 =>
        rw [hfp] at h
        simp [Except.map] at h
        rw [← h]
        exact ih _ _ hfp
    · simp at h
      rw [← h]

theorem second_pass_error_other (mp : Mol → Mol → Except MergeErr Mol) :
    ∀ (fs : List Mol) (scaffold : Mol) (e : MergeErr),
      second_pass mp scaffold fs = Except.error e → e = MergeErr.other := by
  intro fs
  induction fs with
  | nil =>
    intro scaffold e h
    simp [second_pass] at h
  | cons f fs ih =>
    intro scaffold e h
    rw [second_pass] at h
    split at h
    · exact ih _ _ h
    · cases hfp : second_pass mp scaffold fs with
      | ok r => rw [hfp] at h; simp [Except.map] at h
      | error e2 =>
        rw [hfp] at h
        simp [Except.map] at h
        rw [← h]
        exact ih _ _ hfp
    · simp at h
      rw [← h]

theorem first_pass_ok_of_no_other (mp : Mol → Mol → Except MergeErr Mol)
    (hno : ∀ s f, mp s f ≠ Except.error MergeErr.other) :
    ∀ (fs : List Mol) (scaffold : Mol),
      ∃ r, first_pass mp scaffold fs = Except.ok r := by
  intro fs
  induction fs with
  | nil => intro scaffold; exact ⟨(scaffold, []), rfl⟩
  | cons f fs ih =>
    intro scaffold
    cases hmp : mp scaffold f with
    | ok s2 =>
      obtain ⟨r, hr⟩ := ih s2
      exact ⟨r, by rw [first_pass, hmp]; exact hr⟩
    | error e =>
      cases e with
      | connection =>
        obtain ⟨r, hr⟩ := ih scaffold
        refine ⟨(r.1, f :: r.2), ?_⟩
        rw [first_pass, hmp, hr]
        rfl
      | other => exact absurd hmp (hno scaffold f)

theorem second_pass_ok_of_no_other (mp : Mol → Mol → Except MergeErr Mol)
    (hno : ∀ s f, mp s f ≠ Except.error MergeErr.other) :
    ∀ (fs : List Mol) (scaffold : Mol),
      ∃ r, second_pass mp scaffold fs = Except.ok r := by
  intro fs
  induction fs with
  | nil => intro scaffold; exact ⟨(scaffold, []), rfl⟩
  | cons f fs ih =>
    intro scaffold
    cases hmp : mp scaffold f with
    | ok s2 =>
      obtain ⟨r, hr⟩ := ih s2
      exact ⟨r, by rw [second_pass, hmp]; exact hr⟩
    | error e =>
      cases e with
      | connection =>
        obtain ⟨r, hr⟩ := ih scaffold
        refine ⟨(r.1, (f.name.getD "") :: r.2), ?_⟩
        rw [second_pass, hmp, hr]
        rfl
      | other => exact absurd hmp (hno scaffold f)

theorem nameHits_length (hits : List Mol) :
    (nameHits hits).length = hits.length := by
  simp [nameHits]

/-- CLAIM C7.  `merge_hits` never propagates the connectivity error: a hit
whose pairwise merge raises it is deferred to the single second pass, and
a second failure is only recorded in the unmatched list.  Moreover, when
the pairwise merge can fail only with the connectivity error (no other
exception) and the hit list is nonempty, the merge always completes and
returns a scaffold together with the unmatched names and the (renamed)
hits. -/
theorem merge_hits_never_connectivity_error
    (mp : Mol → Mol → Except MergeErr Mol) (hits : List Mol) :
    merge_hits mp hits ≠ Except.error MergeErr.connection ∧
    (hits ≠ [] → (∀ s f, mp s f ≠ Except.error MergeErr.other) →
      ∃ r, merge_hits mp hits = Except.ok r) := by
  constructor
  · intro hcon
    unfold merge_hits at hcon
    split at hcon
    · simp at hcon
    · split at hcon
      · rename_i e hfp
        rw [first_pass_error_other mp _ _ _ hfp] at hcon
        simp at hcon
      · split at hcon
        · rename_i e hsp
          rw [second_pass_error_other mp _ _ _ hsp] at hcon
          simp at hcon
        · simp at hcon
  · intro hne hno
    cases hnh : nameHits hits with
    | nil =>
      have hlen := nameHits_length hits
      rw [hnh, List.length_nil] at hlen
      exact absurd (List.eq_nil_of_length_eq_zero hlen.symm) hne
    | cons h0 rest =>
      obtain ⟨r1, hfp⟩ := first_pass_ok_of_no_other mp hno rest h0
      obtain ⟨r2, hsp⟩ := second_pass_ok_of_no_other mp hno r1.2 r1.1
      refine ⟨(r2.1, r2.2, nameHits hits), ?_⟩
      unfold merge_hits
      rw [hnh]
      simp [hfp, hsp]

/-- Witness for C7 at a concrete input: with a pairwise merge that always
raises the connectivity error, merging two named hits still returns a
result (the second hit ends up unmatched), discharging both hypotheses. -/
theorem merge_hits_never_connectivity_error_witness :
    ([molC, molC] : List Mol) ≠ [] ∧
      (∀ s f, (fun _ _ => Except.error MergeErr.connection :
          Mol → Mol → Except MergeErr Mol) s f
        ≠ Except.error MergeErr.other) ∧
      ∃ r, merge_hits (fun _ _ => Except.error MergeErr.connection)
        [molC, molC] = Except.ok r := by
  refine ⟨by simp, fun s f => by simp, ?_⟩
  exact (merge_hits_never_connectivity_error
    (fun _ _ => Except.error MergeErr.connection) [molC, molC]).2
    (by simp) (fun s f => by simp)

/-- Concrete nameless hit used by the C2 counterexample. -/
def blankHit : Mol :=
  { name := none, atoms := [{ symbol := "C" }], pos := [⟨0, 0, 0⟩] }

/-- The same hit after the fallback-naming pass renamed it in place. -/
def blankHitNamed : Mol := { blankHit with name := some "hit0" }

/-- Counterexample to CLAIM C2 as stated.  Constructing a session over a
single nameless hit and running the merge changes the caller's hit object:
`merge_hits` assigns the synthetic name `hit0` to it in place (state
passing returns the mutated hit list), so the hits are not untouched
private deep copies. -/
theorem hits_mutated_counterexample :
    merge_hits (fun s _ => Except.ok s) [blankHit]
        = Except.ok (blankHitNamed, [], [blankHitNamed]) ∧
      blankHitNamed ≠ blankHit := by
  refine ⟨rfl, ?_⟩
  intro h
  have := congrArg Mol.name h
  simp [blankHitNamed, blankHit] at this

theorem nameHits_enumFrom (hits : List Mol) :
    ∀ k, (∀ m ∈ hits, ∃ s, m.name = some s ∧ isBlank s = false) →
      (List.enumFrom k hits).map nameStep = hits := by
  induction hits with
  | nil => intro k _; rfl
  | cons x t ih =>
    intro k hnames
    obtain ⟨s, hs, hst⟩ := hnames x (List.mem_cons_self x t)
    have hx : nameStep (k, x) = x := by
      unfold nameStep
      simp [hs, hst]
    simp only [List.enumFrom, List.map_cons]
    rw [hx]
    rw [ih (k + 1) (fun m hm => hnames m (List.mem_cons_of_mem _ hm))]

theorem nameHits_of_named (hits : List Mol)
    (hnames : ∀ m ∈ hits, ∃ s, m.name = some s ∧ isBlank s = false) :
    nameHits hits = hits := by
  unfold nameHits
  rw [List.enum]
  exact nameHits_enumFrom hits 0 hnames

/-- CLAIM C2 (amended).  The hits are not deep-copied: `merge_hits` renames
a nameless or blank-named hit in place (see the counterexample), and
`_categorise` tags fragment atoms inside the pairwise merge.  Yet the
fallback-naming pass is the only hit mutation done by `merge_hits` itself:
when every input hit already carries a non-blank name, the hit list coming
out of a successful merge is exactly the input list. -/
theorem merge_preserves_nonblank_names
    (mp : Mol → Mol → Except MergeErr Mol) (hits : List Mol)
    (hnames : ∀ m ∈ hits, ∃ s, m.name = some s ∧ isBlank s = false)
    (r : Mol × List String × List Mol)
    (hok : merge_hits mp hits = Except.ok r) :
    r.2.2 = hits := by
  have hr : r.2.2 = nameHits hits := by
    unfold merge_hits at hok
    split at hok
    · simp at hok
    · split at hok
      · simp at hok
      · split at hok
        · simp at hok
        · cases hok
          rfl
  rw [hr]
  exact nameHits_of_named hits hnames

/-- Witness for the amended C2: two named hits pass through a successful
merge unchanged. -/
theorem merge_preserves_nonblank_names_witness :
    merge_hits (fun s _ => Except.ok s) [molC, molC]
        = Except.ok (molC, [], [molC, molC]) ∧
      ([molC, molC] : List Mol) = [molC, molC] := by
  refine ⟨rfl, ?_⟩
  exact merge_preserves_nonblank_names (fun s _ => Except.ok s) [molC, molC]
    (by
      intro m hm
      have hm2 : m = molC := by simpa using hm
      rw [hm2]
      exact ⟨"c1", rfl, by decide⟩)
    (molC, [], [molC, molC]) rfl

/-! ### Scaffold refinement (`posthoc_refine`, C8) -/

/-- Mean of a list of rationals (`np.mean`).  Division by zero never occurs
in use: the empty case is handled by the `len(positions[i]) == 0` branch. -/
def meanQ (l : List ℚ) : ℚ := l.sum / l.length

/-- Per-axis mean position: `np.mean(np.array(positions[i]), axis=0)`. -/
def meanPt (l : List Pt) : Pt :=
  ⟨meanQ (l.map Pt.x), meanQ (l.map Pt.y), meanQ (l.map Pt.z)⟩

/-- Population variance of a list (the square of `np.std(..., ddof=0)`). -/
def varQ (l : List ℚ) : ℚ :=
  meanQ (l.map (fun v => (v - meanQ l) * (v - meanQ l)))

/-- Spread scalar stored into `_Stdev`:
`np.mean(np.std(np.array(positions[i]), axis=0))` in the source.  The
per-axis standard deviation is the square root of `varQ` and irrational in
general, so the model stores the mean of the per-axis variances; it is
zero exactly when the source's value is, and no claim depends on its
numeric value beyond propagation. -/
def sdModel (l : List Pt) : ℚ :=
  meanQ [varQ (l.map Pt.x), varQ (l.map Pt.y), varQ (l.map Pt.z)]

/-- Model of `json.dumps` on a list of plain strings. -/
def jsonDumps (l : List String) : String :=
  "[" ++ String.intercalate ", " (l.map (fun e => "\"" ++ e ++ "\"")) ++ "]"

/-- Matched hit positions collected for scaffold atom `i`: the
`positions[k].append(...)` loop of `posthoc_refine`, iterating the hits in
order and each positional mapping's items.  `maps` pairs each hit with its
`get_positional_mapping(scaffold, hit)` result. -/
def positionsAt (maps : List (Mol × List (ℕ × ℕ))) (i : ℕ) : List Pt :=
  maps.flatMap (fun hm =>
    hm.2.filterMap (fun kv =>
      if kv.1 = i then some (hm.1.pos.getD kv.2 ⟨0, 0, 0⟩) else none))

/-- Provenance strings collected for scaffold atom `i`
(`equivalence[k].append(f-string of hit name and hit atom index)`). -/
def equivalenceAt (maps : List (Mol × List (ℕ × ℕ))) (i : ℕ) : List String :=
  maps.flatMap (fun hm =>
    hm.2.filterMap (fun kv =>
      if kv.1 = i then
        some ((hm.1.name.getD "") ++ "." ++ toString kv.2)
      else none))

/-- Embedding of `Fragmenstein.posthoc_refine(scaffold)` (source lines
469-501), with the session's hits passed explicitly.  Every scaffold atom
with at least one positional match across the hits gets the per-axis mean
of the matched hit positions, the spread scalar, and the provenance list;
an atom with no matches keeps its merge-step coordinate and gets
`origin = "none"`, `confidence = 0`.  The final `Chem.SanitizeMol` is a
toolkit call that rewrites no coordinate or property tracked here.  `fuel`
feeds the positional-mapping loops; `none` when any of them raises or
fails to terminate within the bound. -/
def posthoc_refine (hits : List Mol) (scaffold : Mol) (fuel : ℕ) :
    Option Mol := do
  let maps ← hits.mapM (fun h =>
    (get_positional_mapping scaffold.pos h.pos 2 fuel).map (fun m => (h, m)))
  let n := scaffold.atoms.length
  some { scaffold with
    atoms := (List.range n).map (fun i =>
      let a := scaffold.atoms.getD i { symbol := "" }
      if positionsAt maps i = [] then
        { a with stdev := 0, origin := "none" }
      else
        { a with stdev := sdModel (positionsAt maps i),
                 origin := jsonDumps (equivalenceAt maps i) }),
    pos := (List.range n).map (fun i =>
      if positionsAt maps i = [] then scaffold.pos.getD i ⟨0, 0, 0⟩
      else meanPt (positionsAt maps i)) }

/-- Scaffold for the C8 counterexample: one atom at the origin. -/
def refineScaffold : Mol :=
  { name := some "s", atoms := [{ symbol := "C" }], pos := [⟨0, 0, 0⟩] }

/-- Hits for the C8 counterexample: one atom at x = 1.9 (inside the 2 Å
cutoff of the scaffold atom) and one at x = 3.5 (outside it, but inside
the cutoff of the refined position 1.9). -/
def refineHits : List Mol :=
  [{ name := some "h1", atoms := [{ symbol := "C" }], pos := [⟨19/10, 0, 0⟩] },
   { name := some "h2", atoms := [{ symbol := "C" }], pos := [⟨7/2, 0, 0⟩] }]

unseal Rat.mul Rat.add Rat.sub Rat.inv in
/-- Counterexample to CLAIM C8 as stated.  Refining `refineScaffold` once
moves its atom to 1.9 (only h1 matches); refining the already-refined
scaffold again now also matches h2 (distance 1.6 ≤ 2) and moves the atom
to the new mean 2.7 — the second run changes a coordinate. -/
theorem refine_not_idempotent_counterexample :
    ((posthoc_refine refineHits refineScaffold 3).bind
        (fun s1 => posthoc_refine refineHits s1 3)).map Mol.pos
      ≠ (posthoc_refine refineHits refineScaffold 3).map Mol.pos := by
  decide

theorem getD_map_range {α : Type} (n i : ℕ) (g : ℕ → α) (d : α) (h : i < n) :
    ((List.range n).map g).getD i d = g i := by
  rw [List.getD_eq_getElem?_getD, List.getElem?_map, List.getElem?_range h]
  rfl

/-- CLAIM C8 (amended).  Re-running the refinement changes no coordinate
PROVIDED the positional mappings computed against the refined scaffold
coincide with those computed against the original scaffold (for every
hit).  Without that proviso the moved coordinates can bring further hit
atoms inside the 2 Å cutoff and the second run moves atoms again (see the
counterexample). -/
theorem refine_idempotent_of_stable_mappings
    (hits : List Mol) (s0 s1 : Mol) (fuel : ℕ)
    (h1 : posthoc_refine hits s0 fuel = some s1)
    (hstable : ∀ h ∈ hits, get_positional_mapping s1.pos h.pos 2 fuel
        = get_positional_mapping s0.pos h.pos 2 fuel) :
    ∃ s2, posthoc_refine hits s1 fuel = some s2 ∧ s2.pos = s1.pos := by
  unfold posthoc_refine at h1 ⊢
  cases hm0 : hits.mapM (fun h =>
      (get_positional_mapping s0.pos h.pos 2 fuel).map (fun m => (h, m))) with
  | none => rw [hm0] at h1; exact absurd h1 (by simp)
  | some maps0 =>
    rw [hm0] at h1
    have hm1 : hits.mapM (fun h =>
        (get_positional_mapping s1.pos h.pos 2 fuel).map (fun m => (h, m)))
        = some maps0 := by
      rw [← hm0]
      clear hm0 h1
      induction hits with
      | nil => rfl
      | cons h t ih =>
        rw [List.mapM_cons, List.mapM_cons]
        rw [hstable h (List.mem_cons_self h t)]
        rw [ih (fun h2 hh2 => hstable h2 (List.mem_cons_of_mem _ hh2))]
    rw [hm1]
    simp only [Option.bind_some] at h1 ⊢
    cases h1
    refine ⟨_, rfl, ?_⟩
    simp only [List.length_map, List.length_range]
    apply List.map_congr_left
    intro i hi
    rw [List.mem_range] at hi
    dsimp only
    by_cases hp : positionsAt maps0 i = []
    · rw [if_pos hp, if_pos hp]
      rw [getD_map_range _ _ _ _ hi]
      rw [if_pos hp]
    · rw [if_neg hp, if_neg hp]

/-- One-carbon molecule refined against `[molC]`: coordinates unchanged,
provenance recorded. -/
def molCRefined : Mol :=
  { molC with
    atoms := [{ symbol := "C", stdev := 0, origin := jsonDumps ["c1.0"] }] }

unseal Rat.mul Rat.add Rat.sub Rat.inv in
/-- Witness for the amended C8: refining `molC` against the hit list
`[molC]` yields `molCRefined` with the same coordinates and the positional
mappings are unchanged by the move, so the theorem applies: re-running the
refinement changes no coordinate. -/
theorem refine_idempotent_witness :
    ∃ s2, posthoc_refine [molC] molCRefined 3 = some s2
      ∧ s2.pos = molCRefined.pos := by
  apply refine_idempotent_of_stable_mappings [molC] molC molCRefined 3
  · decide
  · intro h hh
    have hh2 : h = molC := by simpa using hh
    rw [hh2]
    decide

/-! ### Followup placement (`place_followup`, C9) -/

/-- Neighbor atom indices via the undirected bond list (`GetNeighbors`). -/
def neighbors (adj : List (ℕ × ℕ)) (i : ℕ) : List ℕ :=
  adj.filterMap (fun b =>
    if b.1 = i then some b.2 else if b.2 = i then some b.1 else none)

/-- Embedding of `Fragmenstein._recruit_team(mol, starting, uniques, team)`:
add `starting` to the team, then recurse into every neighbor that is
unique and not yet in the team.  The team is a Python set; the model keeps
it as a duplicate-free insertion list.  The recursion depth is bounded by
the atom count in the source; `fuel` bounds it here. -/
def recruit_team (adj : List (ℕ × ℕ)) (uniques : List ℕ) :
    ℕ → ℕ → List ℕ → List ℕ
  | 0, starting, team => if starting ∈ team then team else team ++ [starting]
  | fuel + 1, starting, team =>
    let t0 := if starting ∈ team then team else team ++ [starting]
    (neighbors adj starting).foldl
      (fun t i =>
        if i ∈ uniques ∧ i ∉ t then recruit_team adj uniques fuel i t else t)
      t0

/-- Fold invariant preservation. -/
theorem foldl_invariant {α β : Type} (P : β → Prop) (f : β → α → β)
    (l : List α) (init : β) (h0 : P init)
    (hstep : ∀ b a, a ∈ l → P b → P (f b a)) : P (l.foldl f init) := by
  induction l generalizing init with
  | nil => exact h0
  | cons a t ih =>
    exact ih (f init a) (hstep init a (by simp) h0)
      (fun b a2 ha2 hb => hstep b a2 (by simp [ha2]) hb)

/-- Atoms recruited into a team are unique atoms (or were already in the
team). -/
theorem recruit_team_subset (adj : List (ℕ × ℕ)) (uniques : List ℕ) :
    ∀ (fuel starting : ℕ) (team : List ℕ),
      starting ∈ uniques → (∀ x ∈ team, x ∈ uniques) →
      ∀ x ∈ recruit_team adj uniques fuel starting team, x ∈ uniques := by
  intro fuel
  induction fuel with
  | zero =>
    intro starting team hs ht x hx
    rw [recruit_team] at hx
    by_cases hmem : starting ∈ team
    · rw [if_pos hmem] at hx
      exact ht x hx
    · rw [if_neg hmem] at hx
      rcases List.mem_append.mp hx with h | h
      · exact ht x h
      · rw [List.mem_singleton.mp h]
        exact hs
  | succ f ih =>
    intro starting team hs ht x hx
    rw [recruit_team] at hx
    refine foldl_invariant (fun t => ∀ y ∈ t, y ∈ uniques) _ _ _ ?_ ?_ x hx
    · intro y hy
      by_cases hmem : starting ∈ team
      · rw [if_pos hmem] at hy
        exact ht y hy
      · rw [if_neg hmem] at hy
        rcases List.mem_append.mp hy with h | h
        · exact ht y h
        · rw [List.mem_singleton.mp h]
          exact hs
    · intro t a _ hinv
      by_cases hcond : a ∈ uniques ∧ a ∉ t
      · rw [if_pos hcond]
        intro y hy
        exact ih a t hcond.1 hinv y hy
      · rw [if_neg hcond]
        exact hinv

/-- Putty state during `place_followup`: the output conformer positions
and the per-atom provenance properties (`_Stdev`, `_Origin`). -/
structure Putty where
  pos : ℕ → Pt
  stdev : ℕ → ℚ
  origin : ℕ → String

/-- Inputs of the placement downstream of the toolkit.  `n`, `adj` and
`symbols` describe the candidate `mol` (atom count, bonds, atom symbols);
`chimPos`, `chimStdev`, `chimOrigin` read the chimera's conformer and
per-atom provenance; `sextantPos r` is the sextant's conformer after the
`r`-th `rdMolAlign.AlignMol` call (round 0 is the global prealignment of
the embedded conformer), modeling the external rigid-alignment results;
`molStdev` and `molOrigin` are the candidate's initial properties;
`attachment` is the stored attachment position
(`self.attachement.GetConformer().GetAtomPosition(0)` when present);
`recruitFuel` bounds the team recursion. -/
structure PlaceEnv where
  n : ℕ
  adj : List (ℕ × ℕ)
  symbols : ℕ → String
  chimPos : ℕ → Pt
  chimStdev : ℕ → ℚ
  chimOrigin : ℕ → String
  sextantPos : ℕ → ℕ → Pt
  molStdev : ℕ → ℚ
  molOrigin : ℕ → String
  attachment : Option Pt
  recruitFuel : ℕ

/-- One iteration of the `for i in range(putty.GetNumAtoms())` loop of
`place_followup` (source lines 228-239): a mapped atom receives the
chimera atom's provenance and coordinate, an unmapped one is marked unique
with `_Stdev = 0`, `_Origin = 'none'` and keeps its aligned-sextant
coordinate. -/
def mapStep (env : PlaceEnv) (amap : List (ℕ × ℕ)) (st2 : Putty) (i : ℕ) :
    Putty :=
  match amap.lookup i with
  | some ci =>
    { pos := fun x => if x = i then env.chimPos ci else st2.pos x,
      stdev := fun x => if x = i then env.chimStdev ci else st2.stdev x,
      origin := fun x => if x = i then env.chimOrigin ci else st2.origin x }
  | none =>
    { pos := st2.pos,
      stdev := fun x => if x = i then 0 else st2.stdev x,
      origin := fun x => if x = i then "none" else st2.origin x }

/-- The whole matched-atom loop. -/
def place_map_loop (env : PlaceEnv) (amap : List (ℕ × ℕ)) (st : Putty) :
    Putty :=
  (List.range env.n).foldl (mapStep env amap) st

/-- The unique atoms collected by that loop, in index order (the source
keeps them in a Python set of ints; any processing order gives the same
final properties). -/
def uniquesOf (env : PlaceEnv) (amap : List (ℕ × ℕ)) : List ℕ :=
  (List.range env.n).filter (fun i => (amap.lookup i).isNone)

/-- Keys of `categories['pairs']` from `_categorise(sextant, uniques)`:
unique atoms having at least one non-unique neighbor. -/
def pairs_keys (env : PlaceEnv) (uniques : List ℕ) : List ℕ :=
  uniques.filter (fun i =>
    (neighbors env.adj i).any (fun j => decide (j ∉ uniques)))

/-- `categories['dummies']`: wildcard atoms among the uniques. -/
def dummiesOf (env : PlaceEnv) (uniques : List ℕ) : List ℕ :=
  uniques.filter (fun i => env.symbols i == "*")

/-- One iteration of the unique-group placement loop of `place_followup`
(source lines 245-271), on the accumulator (putty, done_already, round):
skip an anchor already processed; otherwise recruit its team, pin the
first dummy's putty position to the attachment coordinate when stored and
in the team, re-align the sextant (the oracle's round advances past the
`AlignMol` call), copy the aligned sextant positions of every team atom
into the putty, and mark the other anchors of the team as done.  Only
positions are written; the provenance properties are untouched. -/
def teamStep (env : PlaceEnv) (uniques : List ℕ)
    (acc : Putty × List ℕ × ℕ) (u : ℕ) : Putty × List ℕ × ℕ :=
  if u ∈ acc.2.1 then acc
  else
    let st := acc.1
    let round := acc.2.2
    let team := recruit_team env.adj uniques env.recruitFuel u []
    let st1 :=
      match env.attachment with
      | some apt =>
        match dummiesOf env uniques with
        | [] => st
        | r :: _ =>
          if r ∈ team then
            { st with pos := fun x => if x = r then apt else st.pos x }
          else st
      | none => st
    let st2 := { st1 with
      pos := fun x => if x ∈ team then env.sextantPos (round + 1) x
        else st1.pos x }
    (st2, acc.2.1 ++ team.filter
      (fun o => decide (o ∈ pairs_keys env uniques) && decide (o ≠ u)),
      round + 1)

/-- The whole unique-group placement loop. -/
def place_team_loop (env : PlaceEnv) (uniques : List ℕ) (st0 : Putty) :
    Putty :=
  ((pairs_keys env uniques).foldl (teamStep env uniques)
    (st0, ([] : List ℕ), 0)).1

/-- Embedding of `Fragmenstein.place_followup` downstream of the toolkit
calls (embedding, MMFF optimization and the rigid alignments are modeled
by `env.sextantPos`; the candidate-to-chimera MCS mapping `amap` comes
from `get_mcs_mapping`, a dict, so its keys are distinct).  The putty
starts as a copy of the globally aligned sextant carrying the candidate's
initial properties; the matched-atom loop then the unique-group loop run
over it; the final `AllChem.SanitizeMol` resets no coordinate or property
tracked here. -/
def place_followup (env : PlaceEnv) (amap : List (ℕ × ℕ)) : Putty :=
  place_team_loop env (uniquesOf env amap)
    (place_map_loop env amap
      { pos := env.sextantPos 0, stdev := env.molStdev,
        origin := env.molOrigin })

theorem mapStep_ne (env : PlaceEnv) (amap : List (ℕ × ℕ)) (st : Putty)
    (a i : ℕ) (h : a ≠ i) :
    (mapStep env amap st a).pos i = st.pos i ∧
    (mapStep env amap st a).stdev i = st.stdev i ∧
    (mapStep env amap st a).origin i = st.origin i := by
  have hia : ¬ (i = a) := fun hh => h hh.symm
  unfold mapStep
  cases amap.lookup a <;> simp [hia]

theorem mapFold_not_mem (env : PlaceEnv) (amap : List (ℕ × ℕ)) :
    ∀ (l : List ℕ) (st : Putty) (i : ℕ), i ∉ l →
      (l.foldl (mapStep env amap) st).pos i = st.pos i ∧
      (l.foldl (mapStep env amap) st).stdev i = st.stdev i ∧
      (l.foldl (mapStep env amap) st).origin i = st.origin i := by
  intro l
  induction l with
  | nil => intro st i _; exact ⟨rfl, rfl, rfl⟩
  | cons a t ih =>
    intro st i hi
    have hne : a ≠ i := fun h => hi (h ▸ List.mem_cons_self a t)
    have hit : i ∉ t := fun h => hi (List.mem_cons_of_mem a h)
    rw [List.foldl_cons]
    obtain ⟨h1, h2, h3⟩ := ih (mapStep env amap st a) i hit
    obtain ⟨g1, g2, g3⟩ := mapStep_ne env amap st a i hne
    exact ⟨h1.trans g1, h2.trans g2, h3.trans g3⟩

theorem mapFold_mem_some (env : PlaceEnv) (amap : List (ℕ × ℕ)) (ci : ℕ) :
    ∀ (l : List ℕ) (st : Putty) (i : ℕ), i ∈ l → amap.lookup i = some ci →
      (l.foldl (mapStep env amap) st).pos i = env.chimPos ci ∧
      (l.foldl (mapStep env amap) st).stdev i = env.chimStdev ci ∧
      (l.foldl (mapStep env amap) st).origin i = env.chimOrigin ci := by
  intro l
  induction l with
  | nil => intro st i hi; exact absurd hi (List.not_mem_nil i)
  | cons a t ih =>
    intro st i hi hl
    rw [List.foldl_cons]
    by_cases hit : i ∈ t
    · exact ih (mapStep env amap st a) i hit hl
    · have hai : a = i := by
        rcases List.mem_cons.mp hi with h | h
        · exact h.symm
        · exact absurd h hit
      subst hai
      obtain ⟨h1, h2, h3⟩ := mapFold_not_mem env amap t (mapStep env amap st a) a hit
      have hs : (mapStep env amap st a).pos a = env.chimPos ci ∧
          (mapStep env amap st a).stdev a = env.chimStdev ci ∧
          (mapStep env amap st a).origin a = env.chimOrigin ci := by
        unfold mapStep
        rw [hl]
        exact ⟨by simp, by simp, by simp⟩
      exact ⟨h1.trans hs.1, h2.trans hs.2.1, h3.trans hs.2.2⟩

theorem mapFold_mem_none (env : PlaceEnv) (amap : List (ℕ × ℕ)) :
    ∀ (l : List ℕ) (st : Putty) (i : ℕ), i ∈ l → amap.lookup i = none →
      (l.foldl (mapStep env amap) st).stdev i = 0 ∧
      (l.foldl (mapStep env amap) st).origin i = "none" := by
  intro l
  induction l with
  | nil => intro st i hi; exact absurd hi (List.not_mem_nil i)
  | cons a t ih =>
    intro st i hi hl
    rw [List.foldl_cons]
    by_cases hit : i ∈ t
    · exact ih (mapStep env amap st a) i hit hl
    · have hai : a = i := by
        rcases List.mem_cons.mp hi with h | h
        · exact h.symm
        · exact absurd h hit
      subst hai
      obtain ⟨_, h2, h3⟩ := mapFold_not_mem env amap t (mapStep env amap st a) a hit
      have hs : (mapStep env amap st a).stdev a = 0 ∧
          (mapStep env amap st a).origin a = "none" := by
        unfold mapStep
        rw [hl]
        exact ⟨by simp, by simp⟩
      exact ⟨h2.trans hs.1, h3.trans hs.2⟩

theorem place_team_loop_props (env : PlaceEnv) (uniques : List ℕ)
    (st0 : Putty) :
    (place_team_loop env uniques st0).stdev = st0.stdev ∧
    (place_team_loop env uniques st0).origin = st0.origin := by
  unfold place_team_loop
  refine foldl_invariant
    (fun acc : Putty × List ℕ × ℕ =>
      acc.1.stdev = st0.stdev ∧ acc.1.origin = st0.origin)
    _ _ _ ⟨rfl, rfl⟩ ?_
  intro acc u _ hinv
  unfold teamStep
  by_cases hdone : u ∈ acc.2.1
  · rw [if_pos hdone]
    exact hinv
  · rw [if_neg hdone]
    cases env.attachment <;> cases dummiesOf env uniques <;>
      simp only <;> try exact hinv
    rename_i apt r rest
    by_cases hr : r ∈ recruit_team env.adj uniques env.recruitFuel u []
    · rw [if_pos hr]
      exact hinv
    · rw [if_neg hr]
      exact hinv

theorem place_team_loop_pos_not_unique (env : PlaceEnv) (uniques : List ℕ)
    (st0 : Putty) (i : ℕ) (hi : i ∉ uniques) :
    (place_team_loop env uniques st0).pos i = st0.pos i := by
  unfold place_team_loop
  refine foldl_invariant
    (fun acc : Putty × List ℕ × ℕ => acc.1.pos i = st0.pos i)
    _ _ _ rfl ?_
  intro acc u hu hinv
  have hu2 : u ∈ uniques := List.mem_of_mem_filter hu
  have hteam : ∀ x ∈ recruit_team env.adj uniques env.recruitFuel u [],
      x ∈ uniques :=
    recruit_team_subset env.adj uniques env.recruitFuel u [] hu2
      (by intro x hx; exact absurd hx (List.not_mem_nil x))
  have hiteam : i ∉ recruit_team env.adj uniques env.recruitFuel u [] :=
    fun h => hi (hteam i h)
  unfold teamStep
  by_cases hdone : u ∈ acc.2.1
  · rw [if_pos hdone]
    exact hinv
  · rw [if_neg hdone]
    simp only
    rw [if_neg hiteam]
    split
    · rename_i apt hatt
      split
      · exact hinv
      · rename_i r rest hdm
        have hir : i ≠ r := by
          intro h
          apply hi
          rw [h]
          exact List.mem_of_mem_filter (hdm ▸ List.mem_cons_self r rest)
        by_cases hr : r ∈ recruit_team env.adj uniques env.recruitFuel u []
        · rw [if_pos hr]
          simp only
          rw [if_neg hir]
          exact hinv
        · rw [if_neg hr]
          exact hinv
    · exact hinv

/-- CLAIM C9.  In the final positioned candidate, every candidate atom in
the candidate-to-chimera MCS mapping carries exactly the mapped chimera
atom's coordinate and provenance (`_Origin`, `_Stdev`), unchanged by the
subsequent unique-group rigid alignments (which write only unique atoms'
positions), and every unmapped candidate atom ends with `_Origin = 'none'`
and `_Stdev = 0`. -/
theorem place_followup_mapped_atoms
    (env : PlaceEnv) (amap : List (ℕ × ℕ))
    (hnd : (amap.map Prod.fst).Nodup) (i : ℕ) (hi : i < env.n) :
    (∀ ci, amap.lookup i = some ci →
      (place_followup env amap).pos i = env.chimPos ci ∧
      (place_followup env amap).stdev i = env.chimStdev ci ∧
      (place_followup env amap).origin i = env.chimOrigin ci) ∧
    (amap.lookup i = none →
      (place_followup env amap).stdev i = 0 ∧
      (place_followup env amap).origin i = "none") := by
  have hprops := place_team_loop_props env (uniquesOf env amap)
    (place_map_loop env amap
      { pos := env.sextantPos 0, stdev := env.molStdev,
        origin := env.molOrigin })
  constructor
  · intro ci hci
    have hnu : i ∉ uniquesOf env amap := by
      intro h
      have := List.of_mem_filter h
      rw [hci] at this
      simp at this
    have hpos := place_team_loop_pos_not_unique env (uniquesOf env amap)
      (place_map_loop env amap
        { pos := env.sextantPos 0, stdev := env.molStdev,
          origin := env.molOrigin }) i hnu
    obtain ⟨m1, m2, m3⟩ := mapFold_mem_some env amap ci (List.range env.n)
      { pos := env.sextantPos 0, stdev := env.molStdev,
        origin := env.molOrigin } i (List.mem_range.mpr hi) hci
    refine ⟨?_, ?_, ?_⟩
    · rw [place_followup, hpos]
      exact m1
    · rw [place_followup, hprops.1]
      exact m2
    · rw [place_followup, hprops.2]
      exact m3
  · intro hci
    obtain ⟨m2, m3⟩ := mapFold_mem_none env amap (List.range env.n)
      { pos := env.sextantPos 0, stdev := env.molStdev,
        origin := env.molOrigin } i (List.mem_range.mpr hi) hci
    constructor
    · rw [place_followup, hprops.1]
      exact m2
    · rw [place_followup, hprops.2]
      exact m3

/-- Concrete placement environment for the C9 witness: two candidate
atoms bonded together, atom 0 mapped to chimera atom 1, atom 1 unique. -/
def witnessEnv : PlaceEnv :=
  { n := 2, adj := [(0, 1)], symbols := fun _ => "C",
    chimPos := fun i => ⟨i, 2, 3⟩, chimStdev := fun i => i,
    chimOrigin := fun _ => "hit0.0", sextantPos := fun _ _ => ⟨9, 9, 9⟩,
    molStdev := fun _ => 7, molOrigin := fun _ => "stale",
    attachment := none, recruitFuel := 2 }

/-- Witness for C9: at the concrete environment, the mapped atom 0 carries
chimera atom 1's coordinate and provenance and the unmapped atom 1 is
marked `none`/0. -/
theorem place_followup_mapped_atoms_witness :
    (place_followup witnessEnv [(0, 1)]).pos 0 = witnessEnv.chimPos 1 ∧
    (place_followup witnessEnv [(0, 1)]).stdev 0 = witnessEnv.chimStdev 1 ∧
    (place_followup witnessEnv [(0, 1)]).origin 0 = witnessEnv.chimOrigin 1 ∧
    (place_followup witnessEnv [(0, 1)]).stdev 1 = 0 ∧
    (place_followup witnessEnv [(0, 1)]).origin 1 = "none" := by
  have h0 := (place_followup_mapped_atoms witnessEnv [(0, 1)]
    (by decide) 0 (by decide)).1 1 (by decide)
  have h1 := (place_followup_mapped_atoms witnessEnv [(0, 1)]
    (by decide) 1 (by decide)).2 (by decide)
  exact ⟨h0.1, h0.2.1, h0.2.2, h1.1, h1.2⟩

end Fragmenstein
